import Mathlib

/-!
Verification of `tools/stats/upload_test_stats.py` and `torch/cuda/random.py`.

Python dicts are modelled as association lists (`List (κ × β)`) preserving
insertion order, which matches CPython dict semantics. Python floats are
modelled as exact rationals of their decimal literals; `time` sums are about
which values are added, not IEEE rounding.
-/

set_option autoImplicit false

namespace UploadTestStats

/-- Python `str.strip()` / surrounding-whitespace removal, on char lists. -/
def pyStrip (l : List Char) : List Char :=
  ((l.dropWhile Char.isWhitespace).reverse.dropWhile Char.isWhitespace).reverse

/-- Value of a list of decimal digit characters, most significant first. -/
def digitsToNat (l : List Char) : Nat :=
  l.foldl (fun n c => n * 10 + (c.toNat - 48)) 0

/-- Model of Python's built-in `int(str)` on decimal strings: optional
surrounding whitespace, optional sign, then decimal digits. (Digit-grouping
underscores and non-ASCII digits of the CPython parser are not modelled.) -/
def tryParseInt (s : String) : Option Int :=
  match pyStrip s.data with
  | '-' :: rest =>
      if rest ≠ [] ∧ rest.all Char.isDigit then some (-(digitsToNat rest : Int)) else none
  | '+' :: rest =>
      if rest ≠ [] ∧ rest.all Char.isDigit then some (digitsToNat rest : Int) else none
  | l =>
      if l ≠ [] ∧ l.all Char.isDigit then some (digitsToNat l : Int) else none

/-- Mantissa-and-rest of a float literal body: leading digits, an optional
fraction after a dot, and the remaining characters. -/
def floatBody (l : List Char) : (List Char × List Char × List Char) :=
  let ip := l.takeWhile Char.isDigit
  let r1 := l.dropWhile Char.isDigit
  match r1 with
  | '.' :: t => (ip, t.takeWhile Char.isDigit, t.dropWhile Char.isDigit)
  | _ => (ip, [], r1)

/-- Whether the dot was present, for distinguishing `1` from `1.` is not
needed: both are accepted by `float`; `.` alone is rejected because it has
no digits. Exponent tail: `e`/`E`, optional sign, one or more digits. -/
def parseExponent (l : List Char) : Option Int :=
  match l with
  | [] => none
  | '-' :: rest => if rest ≠ [] ∧ rest.all Char.isDigit then some (-(digitsToNat rest : Int)) else none
  | '+' :: rest => if rest ≠ [] ∧ rest.all Char.isDigit then some (digitsToNat rest : Int) else none
  | l' => if l' ≠ [] ∧ l'.all Char.isDigit then some (digitsToNat l' : Int) else none

/-- Model of Python's built-in `float(str)` on finite decimal literals:
optional surrounding whitespace, optional sign, digits with an optional
fraction part, and an optional exponent. (`inf`/`nan` literals are not
modelled.) The result is the exact rational value of the literal. -/
def tryParseFloat (s : String) : Option Rat :=
  let core : List Char → Option Rat := fun body =>
    let (ip, fp, rest) := floatBody body
    if (ip ≠ [] ∨ fp ≠ []) ∧ ip.all Char.isDigit ∧ fp.all Char.isDigit then
      let mant : Rat := (digitsToNat ip : Rat) + (digitsToNat fp : Rat) / ((10 : Rat) ^ fp.length)
      -- the fraction part may be empty only when a dot introduced it; an
      -- empty fraction contributes zero either way
      match rest with
      | [] => some mant
      | 'e' :: t => (parseExponent t).map (fun e => mant * (10 : Rat) ^ e)
      | 'E' :: t => (parseExponent t).map (fun e => mant * (10 : Rat) ^ e)
      | _ => none
    else none
  match pyStrip s.data with
  | '-' :: rest => (core rest).map (fun q => -q)
  | '+' :: rest => core rest
  | l => core l

/-- JSON-serializable values appearing in the dicts built by
`process_xml_element`: strings, ints, floats (as exact rationals), Python
`None`, nested dicts and lists. -/
inductive JVal where
  | s (v : String)
  | i (v : Int)
  | f (v : Rat)
  | null
  | obj (d : List (String × JVal))
  | arr (xs : List JVal)

/-- Lookup in an insertion-ordered association list (Python dict read). -/
def alookup {κ β : Type} [DecidableEq κ] : List (κ × β) → κ → Option β
  | [], _ => none
  | (k', v') :: rest, k => if k' = k then some v' else alookup rest k

/-- Write to an insertion-ordered association list (Python dict write):
replace the value in place when the key is present, else append at the end. -/
def ainsert {κ β : Type} [DecidableEq κ] : List (κ × β) → κ → β → List (κ × β)
  | [], k, v => [(k, v)]
  | (k', v') :: rest, k, v =>
      if k' = k then (k, v) :: rest else (k', v') :: ainsert rest k v

mutual
/-- An `xml.etree.ElementTree.Element`: tag, attributes (an insertion-ordered
dict of strings), optional text and tail, and the child elements in document
order. -/
inductive Element where
  | mk (tag : String) (attrib : List (String × String)) (text : Option String)
      (tail : Option String) (children : ElementList)
/-- The list of children of an `Element`. -/
inductive ElementList where
  | nil
  | cons (head : Element) (tail : ElementList)
end

def Element.tag : Element → String
  | .mk t _ _ _ _ => t

def Element.attrib : Element → List (String × String)
  | .mk _ a _ _ _ => a

def Element.text : Element → Option String
  | .mk _ _ t _ _ => t

def Element.tail : Element → Option String
  | .mk _ _ _ t _ => t

def Element.children : Element → ElementList
  | .mk _ _ _ _ c => c

def ElementList.toList : ElementList → List Element
  | .nil => []
  | .cons c cs => c :: cs.toList

/-- Result of the two coercion `try` blocks of `process_xml_element` on one
string value: `int(v)` is tried first, then `float(v)` is tried on the same
original string, overwriting the int result when it succeeds. -/
def coerceValue (v : String) : JVal :=
  let afterInt : JVal :=
    match tryParseInt v with
    | some n => JVal.i n
    | none => JVal.s v
  match tryParseFloat v with
  | some q => JVal.f q
  | none => afterInt

/-- The `ret.update(element.attrib)` step: fold the attribute dict into the
result dict, every value still a string. -/
def attribUpdate (d : List (String × JVal)) (attrib : List (String × String)) :
    List (String × JVal) :=
  attrib.foldl (fun acc kv => ainsert acc kv.1 (JVal.s kv.2)) d

/-- The coercion loop `for k, v in ret.items()`: every value of the dict is a
string at this point (only attributes have been copied in); each is replaced
by its coerced form. -/
def coerceDict (d : List (String × JVal)) : List (String × JVal) :=
  d.map (fun kv =>
    match kv.2 with
    | JVal.s v => (kv.1, coerceValue v)
    | other => (kv.1, other))

/-- Truthiness test `element.text and element.text.strip()`. -/
def textTruthy : Option String → Bool
  | none => false
  | some t => !t.data.isEmpty && !(pyStrip t.data).isEmpty

/-- One `if element.text and element.text.strip(): ret[key] = element.text`
statement of `process_xml_element` (used for both `text` and `tail`): store
the raw string under the key when it is non-empty and not all whitespace. -/
def textStep (d : List (String × JVal)) (key : String) (o : Option String) :
    List (String × JVal) :=
  match o with
  | some t =>
      if !t.data.isEmpty && !(pyStrip t.data).isEmpty then
        ainsert d key (JVal.s t)
      else d
  | none => d

/-- One iteration of the child loop of `process_xml_element`, given the
already-converted child dict: first occurrence of a tag stores the dict
itself; a repeated tag wraps the existing value into a list if needed and
appends. -/
def childStep (d : List (String × JVal)) (tag : String)
    (childDict : List (String × JVal)) : List (String × JVal) :=
  match alookup d tag with
  | none => ainsert d tag (JVal.obj childDict)
  | some (JVal.arr xs) => ainsert d tag (JVal.arr (xs ++ [JVal.obj childDict]))
  | some v => ainsert d tag (JVal.arr [v, JVal.obj childDict])

/-- What the child loop leaves under a tag, as a function of the converted
dicts of the children carrying that tag, in document order: nothing, the
single dict itself, or a list of the dicts. -/
def collapseChildren (ds : List (List (String × JVal))) : Option JVal :=
  match ds with
  | [] => none
  | [d] => some (JVal.obj d)
  | ds => some (JVal.arr (ds.map JVal.obj))

mutual
/-- Model of `process_xml_element`: copy attributes, coerce numeric-looking
strings, record non-whitespace text and tail, then fold the children in
document order. -/
def process_xml_element : Element → List (String × JVal)
  | .mk _ attrib text tail children =>
      let ret0 := attribUpdate [] attrib
      let ret1 := coerceDict ret0
      let ret2 := textStep ret1 "text" text
      let ret3 := textStep ret2 "tail" tail
      processChildren children ret3

/-- The loop `for child in element` of `process_xml_element`. -/
def processChildren : ElementList → List (String × JVal) → List (String × JVal)
  | .nil, d => d
  | .cons c cs, d => processChildren cs (childStep d c.tag (process_xml_element c))
end

/-- One iteration of a grouping loop of the shape
`if key not in ret: ret[key] = init(x)` followed by in-place updates of
`ret[key]`: the missing key starts from its initial value, and the updated
entry is written back (replacing in place, or appending when new). -/
def groupStep {κ α β : Type} [DecidableEq κ] (keyOf : α → κ) (init : α → β)
    (incr : β → α → β) (acc : List (κ × β)) (x : α) : List (κ × β) :=
  let k := keyOf x
  let b0 :=
    match alookup acc k with
    | none => init x
    | some b => b
  ainsert acc k (incr b0 x)

/-- A whole grouping loop over the input list, starting from the empty dict. -/
def groupFold {κ α β : Type} [DecidableEq κ] (keyOf : α → κ) (init : α → β)
    (incr : β → α → β) (xs : List α) : List (κ × β) :=
  xs.foldl (groupStep keyOf init incr) []

/-- A test-case record as consumed by `summarize_test_cases`: the keys the
function reads. `file` and `classname` are read with `.get` (absent becomes
`None`); `job_id` is `None` when extraction failed; the three `has_*` flags
model `"failure" in test_case`, `"error" in test_case`,
`"skipped" in test_case`. -/
structure TestCase where
  file : Option String
  classname : Option String
  job_id : Option Int
  workflow_id : Int
  workflow_run_attempt : Int
  invoking_file : String
  time : Rat
  has_failure : Bool
  has_error : Bool
  has_skipped : Bool
  deriving DecidableEq

/-- The composite grouping key of `summarize_test_cases`. -/
abbrev TKey : Type :=
  Option String × Option String × Option Int × Int × Int × String

/-- The `get_key` helper of `summarize_test_cases`. -/
def testKey (tc : TestCase) : TKey :=
  (tc.file, tc.classname, tc.job_id, tc.workflow_id, tc.workflow_run_attempt,
    tc.invoking_file)

/-- A summary record as built by `summarize_test_cases`. -/
structure Summary where
  file : Option String
  classname : Option String
  job_id : Option Int
  workflow_id : Int
  workflow_run_attempt : Int
  invoking_file : String
  tests : Nat
  failures : Nat
  errors : Nat
  skipped : Nat
  successes : Nat
  time : Rat
  deriving DecidableEq

/-- The key fields recorded inside a summary. -/
def summaryKey (s : Summary) : TKey :=
  (s.file, s.classname, s.job_id, s.workflow_id, s.workflow_run_attempt,
    s.invoking_file)

/-- The `init_value` helper of `summarize_test_cases`. -/
def initValue (tc : TestCase) : Summary :=
  { file := tc.file
    classname := tc.classname
    job_id := tc.job_id
    workflow_id := tc.workflow_id
    workflow_run_attempt := tc.workflow_run_attempt
    invoking_file := tc.invoking_file
    tests := 0
    failures := 0
    errors := 0
    skipped := 0
    successes := 0
    time := 0 }

/-- The per-record updates of the loop body of `summarize_test_cases`:
`tests += 1`, then the `if "failure" ... elif "error" ... elif "skipped"
... else` chain, then `time += test_case["time"]`. -/
def incrSummary (s : Summary) (tc : TestCase) : Summary :=
  let s1 := { s with tests := s.tests + 1 }
  let s2 :=
    if tc.has_failure then { s1 with failures := s1.failures + 1 }
    else if tc.has_error then { s1 with errors := s1.errors + 1 }
    else if tc.has_skipped then { s1 with skipped := s1.skipped + 1 }
    else { s1 with successes := s1.successes + 1 }
  { s2 with time := s2.time + tc.time }

/-- Model of `summarize_test_cases`: group by the composite key, keep the
values of the resulting dict in insertion order. -/
def summarize_test_cases (tcs : List TestCase) : List Summary :=
  (groupFold testKey initValue incrSummary tcs).map Prod.snd

/-- The per-key summary demanded by the spec sentence, stated independently
of the grouping loop: `tc0` is the first record with the key; the four
outcome counters classify each record by the first marker in the priority
order failure, error, skipped, success. -/
def specSummary (tc0 : TestCase) (ms : List TestCase) : Summary :=
  { file := tc0.file
    classname := tc0.classname
    job_id := tc0.job_id
    workflow_id := tc0.workflow_id
    workflow_run_attempt := tc0.workflow_run_attempt
    invoking_file := tc0.invoking_file
    tests := ms.length
    failures := (ms.filter (fun tc => tc.has_failure)).length
    errors := (ms.filter (fun tc => !tc.has_failure && tc.has_error)).length
    skipped :=
      (ms.filter (fun tc => !tc.has_failure && !tc.has_error && tc.has_skipped)).length
    successes :=
      (ms.filter
        (fun tc => !tc.has_failure && !tc.has_error && !tc.has_skipped)).length
    time := (ms.map TestCase.time).sum }

/-- The time value stored in an invoking-file-times record: a float while
sums are accumulated, or the raw string taken from the testsuite `time`
attribute when the pytest-parallel override applies. -/
inductive TimeVal where
  | num (q : Rat)
  | raw (s : String)
  deriving DecidableEq

/-- A record built by `init_value` of `get_invoking_file_times`. -/
structure FileTime where
  job_id : Option Int
  workflow_id : Int
  workflow_run_attempt : Int
  invoking_file : String
  time : TimeVal
  deriving DecidableEq

/-- The `get_key` helper of `get_invoking_file_times`. -/
def sKey (s : Summary) : String × Option Int :=
  (s.invoking_file, s.job_id)

/-- The key fields recorded inside an invoking-file-times record. -/
def ftKey (v : FileTime) : String × Option Int :=
  (v.invoking_file, v.job_id)

/-- The `init_value` helper of `get_invoking_file_times`. -/
def ftInit (s : Summary) : FileTime :=
  { job_id := s.job_id
    workflow_id := s.workflow_id
    workflow_run_attempt := s.workflow_run_attempt
    invoking_file := s.invoking_file
    time := TimeVal.num 0 }

/-- The update `ret[key]["time"] += summary["time"]`; during this first loop
the stored time is always numeric, so the `raw` branch is unreachable. -/
def ftIncr (v : FileTime) (s : Summary) : FileTime :=
  { v with
    time :=
      match v.time with
      | TimeVal.num q => TimeVal.num (q + s.time)
      | TimeVal.raw t => TimeVal.raw t }

/-- Model of `get_invoking_file_times`: group the summaries by
`(invoking_file, job_id)` summing times, then overwrite the time of every
key present in `pytest_parallel_times` with the stored value (a string taken
from the testsuite element's `time` attribute), and return the dict values. -/
def get_invoking_file_times (summaries : List Summary)
    (ptimes : List ((String × Option Int) × String)) : List FileTime :=
  let ret := groupFold sKey ftInit ftIncr summaries
  ret.map (fun p =>
    match alookup ptimes p.1 with
    | some t => { p.2 with time := TimeVal.raw t }
    | none => p.2)

/-- Python `s.rpartition(sep)[2]` for a one-character separator: the part
after the last occurrence of the separator, or the whole string when the
separator does not occur. -/
def afterLast (l : List Char) (c : Char) : List Char :=
  (l.reverse.takeWhile (fun a => a ≠ c)).reverse

/-- Model of `get_job_id`: `int(report.parts[0].rpartition("_")[2])`.
`none` stands for the exception raised inside the Python function (empty
parts list, or a suffix `int()` rejects). -/
def get_job_id (reportParts : List String) : Option Int :=
  match reportParts with
  | [] => none
  | p :: _ => tryParseInt (String.mk (afterLast p.data '_'))

/-- The four writes done to one case dict by the loop of
`parse_xml_report`: workflow id, run attempt, the (possibly missing) job id,
and the invoking file taken from the report's parent directory name. -/
def addCaseFields (case : List (String × JVal)) (workflow_id : Int)
    (workflow_run_attempt : Int) (job_id : Option Int) (invoking_file : String) :
    List (String × JVal) :=
  let c1 := ainsert case "workflow_id" (JVal.i workflow_id)
  let c2 := ainsert c1 "workflow_run_attempt" (JVal.i workflow_run_attempt)
  let c3 :=
    ainsert c2 "job_id"
      (match job_id with
       | some j => JVal.i j
       | none => JVal.null)
  ainsert c3 "invoking_file" (JVal.s invoking_file)

mutual
/-- `ElementTree` `root.iter(tag)`: the element itself when its tag matches,
then the matching descendants of each child, in document order. -/
def Element.iter : Element → String → List Element
  | e@(.mk t _ _ _ children), tag =>
      (if t = tag then [e] else []) ++ ElementList.iterAll children tag

/-- `iter` over a list of sibling elements, in document order. -/
def ElementList.iterAll : ElementList → String → List Element
  | .nil, _ => []
  | .cons c cs, tag => Element.iter c tag ++ ElementList.iterAll cs tag
end

/-- Model of `parse_xml_report`. The job id is extracted first and its
failure degrades to `none`; `is_rerun_disabled_tests` lives in
`upload_stats_lib` (outside the examined sources) and is passed in as the
boolean `rerunDisabled`; when it holds, no test cases are returned. -/
def parse_xml_report (tag : String) (reportParts : List String)
    (reportParentName : String) (workflow_id : Int) (workflow_run_attempt : Int)
    (root : Element) (rerunDisabled : Bool) : List (List (String × JVal)) :=
  let job_id := get_job_id reportParts
  if rerunDisabled then []
  else
    (root.iter tag).map (fun tc =>
      addCaseFields (process_xml_element tc) workflow_id workflow_run_attempt
        job_id reportParentName)


/-- Element `<testcase foo="1"><foo/></testcase>`: an attribute and a child
share the name `foo`. -/
def cexElemC1 : Element :=
  Element.mk "testcase" [("foo", "1")] none none
    (ElementList.cons (Element.mk "foo" [] none none ElementList.nil)
      ElementList.nil)

/-- Element `<testcase foo="x"><foo/></testcase>`: exactly one child with tag
`foo`, and an attribute of the same name. -/
def cexElemC3 : Element :=
  Element.mk "testcase" [("foo", "x")] none none
    (ElementList.cons (Element.mk "foo" [] none none ElementList.nil)
      ElementList.nil)

/-- Element `<testcase name="t1" time="0.5"/>`. -/
def wElemC1 : Element :=
  Element.mk "testcase" [("name", "t1"), ("time", "0.5")] none none
    ElementList.nil

/-- Element `<testsuite><tc/><tc/></testsuite>`. -/
def wElemC3 : Element :=
  Element.mk "testsuite" [] none none
    (ElementList.cons (Element.mk "tc" [] none none ElementList.nil)
      (ElementList.cons (Element.mk "tc" [] none none ElementList.nil)
        ElementList.nil))

/-- Element `<testcase/>` used as a minimal report root. -/
def wRootC5 : Element := Element.mk "testcase" [] none none ElementList.nil

/-- A concrete test case carrying both a failure marker and an error marker. -/
def tcFailErr : TestCase :=
  { file := some "test_a.py", classname := some "TestA", job_id := some 11,
    workflow_id := 7, workflow_run_attempt := 1, invoking_file := "test_a",
    time := 2, has_failure := true, has_error := true, has_skipped := false }

/-- The summary `summarize_test_cases` builds for `[tcFailErr]`. -/
def sFailErr : Summary :=
  { file := some "test_a.py", classname := some "TestA", job_id := some 11,
    workflow_id := 7, workflow_run_attempt := 1, invoking_file := "test_a",
    tests := 1, failures := 1, errors := 0, skipped := 0, successes := 0,
    time := 2 }

/-- A concrete test case with no outcome marker (a success). -/
def tcOk : TestCase :=
  { file := some "test_b.py", classname := some "TestB", job_id := some 12,
    workflow_id := 7, workflow_run_attempt := 1, invoking_file := "test_b",
    time := 1, has_failure := false, has_error := false, has_skipped := false }

/-- The summary `summarize_test_cases` builds for `[tcOk]`. -/
def sOk : Summary :=
  { file := some "test_b.py", classname := some "TestB", job_id := some 12,
    workflow_id := 7, workflow_run_attempt := 1, invoking_file := "test_b",
    tests := 1, failures := 0, errors := 0, skipped := 0, successes := 1,
    time := 1 }

end UploadTestStats

namespace CudaRandom

/-- Modelled from the spec: the opaque generator handle owned by the external
compute runtime. `manual_seed` installs the given seed, `seed` installs a
fresh value drawn from an entropy source, `initial_seed` reads the installed
seed back, and `set_state` installs an opaque byte buffer. -/
structure GenState where
  initialSeedVal : Int
  stateBlob : List Nat
  offset : Int
  deriving DecidableEq

/-- The generator method `manual_seed`. -/
def GenState.manualSeedOp (g : GenState) (s : Int) : GenState :=
  { g with initialSeedVal := s }

/-- The generator method `seed`, drawing the given fresh entropy value. -/
def GenState.seedOp (g : GenState) (entropy : Int) : GenState :=
  { g with initialSeedVal := entropy }

/-- The generator method `initial_seed`. -/
def GenState.initialSeedOp (g : GenState) : Int :=
  g.initialSeedVal

/-- The generator method `set_state`. -/
def GenState.setStateOp (g : GenState) (blob : List Nat) : GenState :=
  { g with stateBlob := blob }

/-- The heap of tensor buffers: the contents of every tensor by id, plus the
next fresh id. Ids below `next` are allocated and may be aliased by callers;
ids at or above `next` are handed out by fresh allocations. -/
structure Heap where
  mem : Nat → List Nat
  next : Nat

/-- `Tensor.clone()`: allocate a fresh tensor holding the current contents of
the source. The caller of the library function never sees the fresh id. -/
def Heap.clone (h : Heap) (src : Nat) : Nat × Heap :=
  (h.next,
    { mem := fun i => if i = h.next then h.mem src else h.mem i,
      next := h.next + 1 })

/-- A callback queued through `_lazy_call`, holding what the Python closure
captured at call time. `setState` carries the tensor id of the cloned
buffer; the buffer itself is read from the heap only when the callback runs.
The device is `none` when the closure resolves the current device only when
it runs. -/
inductive RngCmd where
  | manualSeedCur (s : Int)
  | manualSeedAll (s : Int)
  | seedCur
  | seedAll
  | setState (dev : Option Nat) (stateId : Nat)
  deriving DecidableEq

/-- Modelled from the spec: the state owned by `torch.cuda` that the RNG
wrapper touches - the device count, the current device, the
lazy-initialization gate, the per-device default generators, and the
callbacks `_lazy_call` has queued while the gate is still closed. -/
structure CudaState where
  deviceCount : Nat
  currentDevice : Nat
  inited : Bool
  generators : List GenState
  queued : List RngCmd
  deriving DecidableEq

/-- Replace the element at an index of a list, when in range. -/
def updateAt {α : Type} (l : List α) (i : Nat) (f : α → α) : List α :=
  match l, i with
  | [], _ => []
  | a :: rest, 0 => f a :: rest
  | a :: rest, Nat.succ j => a :: updateAt rest j f

/-- The loop body of the `seed_all` callback, carrying the `seeded` flag and
the `random_seed` variable across iterations: the first generator is seeded
from fresh entropy and every later generator is manually seeded to the
`initial_seed` the first one reports. -/
def seedAllGo (entropy : Int) : List GenState → Bool → Int → List GenState
  | [], _, _ => []
  | g :: gs, seeded, rs =>
      if seeded then g.manualSeedOp rs :: seedAllGo entropy gs seeded rs
      else
        let g' := g.seedOp entropy
        g' :: seedAllGo entropy gs true g'.initialSeedOp

/-- The whole `seed_all` callback over the generator list (the loop runs
over `range(device_count())`; the list holds the generator of each device in
order). -/
def seedAllApply (entropy : Int) (gens : List GenState) : List GenState :=
  seedAllGo entropy gens false 0

/-- Run one queued callback body, reading tensor contents from the heap as
it is when the callback runs. The entropy value feeds any `seed()` call
inside it. -/
def applyCmd (entropy : Int) (h : Heap) (st : CudaState) : RngCmd → CudaState
  | RngCmd.manualSeedCur s =>
      { st with generators := updateAt st.generators st.currentDevice (GenState.manualSeedOp · s) }
  | RngCmd.manualSeedAll s =>
      { st with generators := st.generators.map (GenState.manualSeedOp · s) }
  | RngCmd.seedCur =>
      { st with generators := updateAt st.generators st.currentDevice (GenState.seedOp · entropy) }
  | RngCmd.seedAll =>
      { st with generators := seedAllApply entropy st.generators }
  | RngCmd.setState dev stateId =>
      let idx := dev.getD st.currentDevice
      { st with generators := updateAt st.generators idx (GenState.setStateOp · (h.mem stateId)) }

/-- Modelled from the spec: `_lazy_call` runs the callback at once when the
one-time initialization gate has already passed, and queues it otherwise. -/
def lazyCall (st : CudaState) (h : Heap) (cmd : RngCmd) (entropy : Int) :
    CudaState :=
  if st.inited then applyCmd entropy h st cmd
  else { st with queued := st.queued ++ [cmd] }

/-- Modelled from the spec: the lazy-initialization gate - a no-op when
already passed, otherwise it opens the gate and serializes the queued
callbacks in order against the heap current at that moment. It can only ever
pass on a machine with a device. -/
def lazyInit (st : CudaState) (h : Heap) (entropy : Int) : CudaState :=
  if st.inited then st
  else
    List.foldl (applyCmd entropy h) { st with inited := true, queued := [] }
      st.queued

/-- Well-formedness of the modelled runtime state: the gate can have passed
only when a device is present, and there is one default generator per
device. -/
def WF (st : CudaState) : Prop :=
  (st.inited = true → 0 < st.deviceCount) ∧ st.generators.length = st.deviceCount

/-- Model of `torch.cuda.random.manual_seed`: queue (or run) a callback that
manually seeds the current device's generator. -/
def manual_seed (s : Int) (st : CudaState) (h : Heap) (entropy : Int) :
    CudaState :=
  lazyCall st h (RngCmd.manualSeedCur s) entropy

/-- Model of `torch.cuda.random.manual_seed_all`. -/
def manual_seed_all (s : Int) (st : CudaState) (h : Heap) (entropy : Int) :
    CudaState :=
  lazyCall st h (RngCmd.manualSeedAll s) entropy

/-- Model of `torch.cuda.random.seed`. -/
def seed (st : CudaState) (h : Heap) (entropy : Int) : CudaState :=
  lazyCall st h RngCmd.seedCur entropy

/-- Model of `torch.cuda.random.seed_all`. -/
def seed_all (st : CudaState) (h : Heap) (entropy : Int) : CudaState :=
  lazyCall st h RngCmd.seedAll entropy

/-- Model of `torch.cuda.random.set_rng_state`: the first statement clones
`new_state` into a fresh tensor, and the queued callback holds the id of
that fresh clone, which the caller cannot reach. Returns the state and the
heap after the clone allocation. -/
def set_rng_state (st : CudaState) (h : Heap) (newState : Nat)
    (dev : Option Nat) (entropy : Int) : CudaState × Heap :=
  let cloned := h.clone newState
  (lazyCall st cloned.2 (RngCmd.setState dev cloned.1) entropy, cloned.2)


/-- An empty heap fixture. -/
def hEmpty : Heap := { mem := fun _ => [], next := 0 }

/-- A heap whose every tensor holds `[5]`, with one allocated id. -/
def hConst5 : Heap := { mem := fun _ => [5], next := 1 }

/-- The heap after the caller mutates tensor 0 to `[6]` (all other ids,
including the fresh clone, untouched). -/
def hMut : Heap := { mem := fun i => if i = 0 then [6] else [5], next := 2 }

/-- A generator fixture. -/
def gA : GenState := { initialSeedVal := 1, stateBlob := [1], offset := 0 }

/-- A generator fixture. -/
def gB : GenState := { initialSeedVal := 2, stateBlob := [2], offset := 0 }

/-- A two-device state with nothing queued. -/
def wSt : CudaState :=
  { deviceCount := 2, currentDevice := 0, inited := false,
    generators := [gA, gB], queued := [] }

/-- A zero-device state with nothing queued. -/
def wSt0 : CudaState :=
  { deviceCount := 0, currentDevice := 0, inited := false,
    generators := [], queued := [] }

end CudaRandom

namespace UploadTestStats

theorem alookup_ainsert_self {κ β : Type} [DecidableEq κ] (d : List (κ × β))
    (k : κ) (v : β) : alookup (ainsert d k v) k = some v := by
  induction d with
  | nil => simp [ainsert, alookup]
  | cons p rest ih =>
      obtain ⟨k', v'⟩ := p
      by_cases h : k' = k
      · simp [ainsert, h, alookup]
      · simp [ainsert, h, alookup, ih]

theorem alookup_ainsert_ne {κ β : Type} [DecidableEq κ] (d : List (κ × β))
    (k' k : κ) (v : β) (h : k' ≠ k) :
    alookup (ainsert d k' v) k = alookup d k := by
  induction d with
  | nil => simp [ainsert, alookup, h]
  | cons p rest ih =>
      obtain ⟨k0, v0⟩ := p
      by_cases h0 : k0 = k'
      · simp [ainsert, h0, alookup, h]
      · simp only [ainsert, h0, if_false, alookup]
        by_cases h1 : k0 = k <;> simp [h1, ih]

theorem ainsert_append_of_none {κ β : Type} [DecidableEq κ] (d : List (κ × β))
    (k : κ) (v : β) (h : alookup d k = none) : ainsert d k v = d ++ [(k, v)] := by
  induction d with
  | nil => simp [ainsert]
  | cons p rest ih =>
      obtain ⟨k0, v0⟩ := p
      by_cases h0 : k0 = k
      · simp [alookup, h0] at h
      · simp only [alookup, h0, if_false] at h
        simp [ainsert, h0, ih h]

theorem alookup_mem {κ β : Type} [DecidableEq κ] (d : List (κ × β)) (k : κ)
    (v : β) (h : alookup d k = some v) : (k, v) ∈ d := by
  induction d with
  | nil => simp [alookup] at h
  | cons p rest ih =>
      obtain ⟨k0, v0⟩ := p
      by_cases h0 : k0 = k
      · subst h0
        simp only [alookup, if_pos, Option.some.injEq, eq_self_iff_true,
          if_true] at h
        subst h
        exact List.mem_cons_self _ _
      · simp only [alookup, h0, if_false] at h
        exact List.mem_cons_of_mem _ (ih h)

theorem mem_ainsert {κ β : Type} [DecidableEq κ] (d : List (κ × β)) (k : κ)
    (v : β) (p : κ × β) (h : p ∈ ainsert d k v) : p ∈ d ∨ p = (k, v) := by
  induction d with
  | nil => simp [ainsert] at h; simp [h]
  | cons q rest ih =>
      obtain ⟨k0, v0⟩ := q
      by_cases h0 : k0 = k
      · simp only [ainsert, h0, if_pos rfl] at h
        rcases List.mem_cons.mp h with h1 | h1
        · exact Or.inr h1
        · exact Or.inl (List.mem_cons_of_mem _ h1)
      · simp only [ainsert, h0, if_false] at h
        rcases List.mem_cons.mp h with h1 | h1
        · exact Or.inl (by simp [h1])
        · rcases ih h1 with h2 | h2
          · exact Or.inl (List.mem_cons_of_mem _ h2)
          · exact Or.inr h2

theorem alookup_eq_none_iff {κ β : Type} [DecidableEq κ] (d : List (κ × β))
    (k : κ) : alookup d k = none ↔ k ∉ d.map Prod.fst := by
  induction d with
  | nil => simp [alookup]
  | cons p rest ih =>
      obtain ⟨k0, v0⟩ := p
      by_cases h0 : k0 = k
      · subst h0
        simp [alookup]
      · have h1 : k ≠ k0 := fun h => h0 h.symm
        simp [alookup, h0, h1, ih]

theorem keys_ainsert {κ β : Type} [DecidableEq κ] (d : List (κ × β)) (k : κ)
    (v : β) :
    (ainsert d k v).map Prod.fst =
      if (alookup d k).isSome then d.map Prod.fst
      else d.map Prod.fst ++ [k] := by
  induction d with
  | nil => simp [ainsert, alookup]
  | cons p rest ih =>
      obtain ⟨k0, v0⟩ := p
      by_cases h0 : k0 = k
      · simp [ainsert, h0, alookup]
      · simp only [ainsert, h0, if_false, alookup, List.map_cons, ih]
        by_cases h1 : (alookup rest k).isSome <;> simp [h1]

theorem nodup_keys_ainsert {κ β : Type} [DecidableEq κ] (d : List (κ × β))
    (k : κ) (v : β) (h : (d.map Prod.fst).Nodup) :
    ((ainsert d k v).map Prod.fst).Nodup := by
  rw [keys_ainsert]
  by_cases h1 : (alookup d k).isSome
  · simpa [h1]
  · have h2 : alookup d k = none := by
      cases h3 : alookup d k
      · rfl
      · simp [h3] at h1
    have h4 : k ∉ d.map Prod.fst := (alookup_eq_none_iff d k).mp h2
    simp [h1, List.nodup_append, h, h4]

theorem filter_keys_nil {κ β : Type} [DecidableEq κ] (d : List (κ × β)) (k : κ)
    (h : k ∉ d.map Prod.fst) : d.filter (fun p => p.1 = k) = [] := by
  induction d with
  | nil => simp
  | cons p rest ih =>
      obtain ⟨k0, v0⟩ := p
      simp only [List.map_cons, List.mem_cons, not_or] at h
      simp [List.filter_cons, Ne.symm h.1, ih h.2]

theorem filter_keys_of_nodup {κ β : Type} [DecidableEq κ] (d : List (κ × β))
    (k : κ) (h : (d.map Prod.fst).Nodup) :
    d.filter (fun p => p.1 = k) =
      match alookup d k with
      | none => []
      | some v => [(k, v)] := by
  induction d with
  | nil => simp [alookup]
  | cons p rest ih =>
      obtain ⟨k0, v0⟩ := p
      simp only [List.map_cons, List.nodup_cons] at h
      by_cases h0 : k0 = k
      · subst h0
        have : rest.filter (fun p => p.1 = k0) = [] := filter_keys_nil rest k0 h.1
        simp [List.filter_cons, alookup, this]
      · simp [List.filter_cons, h0, alookup, ih h.2]

section GroupFoldLemmas

variable {κ α β : Type} [DecidableEq κ] (keyOf : α → κ) (init : α → β)
variable (incr : β → α → β)

theorem alookup_groupStep (acc : List (κ × β)) (x : α) (k : κ) :
    alookup (groupStep keyOf init incr acc x) k =
      if keyOf x = k then
        some (incr
          (match alookup acc k with
           | none => init x
           | some b => b) x)
      else alookup acc k := by
  by_cases h : keyOf x = k
  · subst h
    simp only [groupStep, if_pos rfl]
    exact alookup_ainsert_self _ _ _
  · simp only [groupStep, if_neg h]
    exact alookup_ainsert_ne _ _ _ _ h

theorem alookup_foldl_groupStep_some (xs : List α) (acc : List (κ × β)) (k : κ)
    (b : β) (h : alookup acc k = some b) :
    alookup (xs.foldl (groupStep keyOf init incr) acc) k =
      some ((xs.filter (fun x => keyOf x = k)).foldl incr b) := by
  induction xs generalizing acc b with
  | nil => simpa using h
  | cons x xs ih =>
      rw [List.foldl_cons]
      by_cases hk : keyOf x = k
      · have h1 : alookup (groupStep keyOf init incr acc x) k = some (incr b x) := by
          rw [alookup_groupStep, if_pos hk, h]
        rw [ih _ _ h1, List.filter_cons, if_pos (by simpa using hk)]
        simp
      · have h1 : alookup (groupStep keyOf init incr acc x) k = alookup acc k := by
          rw [alookup_groupStep, if_neg hk]
        rw [ih _ _ (h1.trans h), List.filter_cons, if_neg (by simpa using hk)]

theorem alookup_foldl_groupStep_none (xs : List α) (acc : List (κ × β)) (k : κ)
    (h : alookup acc k = none) :
    alookup (xs.foldl (groupStep keyOf init incr) acc) k =
      match xs.filter (fun x => keyOf x = k) with
      | [] => none
      | y :: ys => some (ys.foldl incr (incr (init y) y)) := by
  induction xs generalizing acc with
  | nil => simpa using h
  | cons x xs ih =>
      rw [List.foldl_cons]
      by_cases hk : keyOf x = k
      · have h1 : alookup (groupStep keyOf init incr acc x) k =
            some (incr (init x) x) := by
          rw [alookup_groupStep, if_pos hk, h]
        rw [alookup_foldl_groupStep_some keyOf init incr xs _ k _ h1,
          List.filter_cons, if_pos (by simpa using hk)]
      · have h1 : alookup (groupStep keyOf init incr acc x) k = alookup acc k := by
          rw [alookup_groupStep, if_neg hk]
        rw [ih _ (h1.trans h), List.filter_cons, if_neg (by simpa using hk)]

theorem nodup_keys_foldl_groupStep (xs : List α) (acc : List (κ × β))
    (h : (acc.map Prod.fst).Nodup) :
    (((xs.foldl (groupStep keyOf init incr) acc)).map Prod.fst).Nodup := by
  induction xs generalizing acc with
  | nil => simpa using h
  | cons x xs ih =>
      rw [List.foldl_cons]
      exact ih _ (nodup_keys_ainsert _ _ _ h)

theorem keyProj_foldl_groupStep (keyProj : β → κ)
    (hinit : ∀ x, keyProj (init x) = keyOf x)
    (hincr : ∀ b x, keyProj (incr b x) = keyProj b) (xs : List α)
    (acc : List (κ × β)) (hacc : ∀ p ∈ acc, keyProj p.2 = p.1) :
    ∀ p ∈ xs.foldl (groupStep keyOf init incr) acc, keyProj p.2 = p.1 := by
  induction xs generalizing acc with
  | nil => simpa using hacc
  | cons x xs ih =>
      rw [List.foldl_cons]
      refine ih _ (fun p hp => ?_)
      rcases mem_ainsert _ _ _ _ hp with h1 | h1
      · exact hacc p h1
      · subst h1
        simp only [hincr]
        cases h2 : alookup acc (keyOf x) with
        | none => simp [h2, hinit]
        | some b =>
            simp only [h2]
            exact hacc (keyOf x, b) (alookup_mem _ _ _ h2)

end GroupFoldLemmas

theorem filter_map_assoc {κ β γ : Type} [DecidableEq κ] (g : (κ × β) → γ)
    (keyOf2 : γ → κ) (R : List (κ × β)) (hg : ∀ p ∈ R, keyOf2 (g p) = p.1)
    (k : κ) :
    (R.map g).filter (fun c => keyOf2 c = k) =
      (R.filter (fun p => p.1 = k)).map g := by
  induction R with
  | nil => simp
  | cons p rest ih =>
      have hp : keyOf2 (g p) = p.1 := hg p (List.mem_cons_self _ _)
      have hrest : ∀ q ∈ rest, keyOf2 (g q) = q.1 := fun q hq =>
        hg q (List.mem_cons_of_mem _ hq)
      by_cases h0 : p.1 = k
      · simp [List.filter_cons, hp, h0, ih hrest]
      · simp [List.filter_cons, hp, h0, ih hrest]

theorem foldl_incrSummary_eq (ms : List TestCase) (b : Summary) :
    ms.foldl incrSummary b =
      { b with
        tests := b.tests + ms.length
        failures := b.failures + (ms.filter (fun tc => tc.has_failure)).length
        errors := b.errors +
          (ms.filter (fun tc => !tc.has_failure && tc.has_error)).length
        skipped := b.skipped +
          (ms.filter
            (fun tc => !tc.has_failure && !tc.has_error && tc.has_skipped)).length
        successes := b.successes +
          (ms.filter
            (fun tc => !tc.has_failure && !tc.has_error && !tc.has_skipped)).length
        time := b.time + (ms.map TestCase.time).sum } := by
  induction ms generalizing b with
  | nil => cases b; simp
  | cons tc ms ih =>
      rw [List.foldl_cons, ih]
      cases b
      by_cases h1 : tc.has_failure
      · simp [incrSummary, h1, List.filter_cons, Summary.mk.injEq]
        refine ⟨by ring, by ring, by ring⟩
      · by_cases h2 : tc.has_error
        · simp [incrSummary, h1, h2, List.filter_cons, Summary.mk.injEq]
          refine ⟨by ring, by ring, by ring⟩
        · by_cases h3 : tc.has_skipped
          · simp [incrSummary, h1, h2, h3, List.filter_cons, Summary.mk.injEq]
            refine ⟨by ring, by ring, by ring⟩
          · simp [incrSummary, h1, h2, h3, List.filter_cons, Summary.mk.injEq]
            refine ⟨by ring, by ring, by ring⟩

theorem summaryKey_initValue (tc : TestCase) :
    summaryKey (initValue tc) = testKey tc := rfl

theorem summaryKey_incrSummary (b : Summary) (tc : TestCase) :
    summaryKey (incrSummary b tc) = summaryKey b := by
  by_cases h1 : tc.has_failure <;> by_cases h2 : tc.has_error <;>
    by_cases h3 : tc.has_skipped <;>
      simp [incrSummary, summaryKey, h1, h2, h3]

theorem specSummary_eq_foldl (tc0 : TestCase) (rest : List TestCase) :
    rest.foldl incrSummary (incrSummary (initValue tc0) tc0) =
      specSummary tc0 (tc0 :: rest) := by
  rw [foldl_incrSummary_eq]
  by_cases h1 : tc0.has_failure
  · simp [incrSummary, initValue, specSummary, h1, List.filter_cons,
      Summary.mk.injEq]
    omega
  · by_cases h2 : tc0.has_error
    · simp [incrSummary, initValue, specSummary, h1, h2, List.filter_cons,
        Summary.mk.injEq]
      omega
    · by_cases h3 : tc0.has_skipped
      · simp [incrSummary, initValue, specSummary, h1, h2, h3,
          List.filter_cons, Summary.mk.injEq]
        omega
      · simp [incrSummary, initValue, specSummary, h1, h2, h3,
          List.filter_cons, Summary.mk.injEq]
        omega

theorem summarize_per_key (tcs : List TestCase) (k : TKey) :
    (summarize_test_cases tcs).filter (fun s => summaryKey s = k) =
      match tcs.filter (fun tc => testKey tc = k) with
      | [] => []
      | tc0 :: rest => [specSummary tc0 (tc0 :: rest)] := by
  have hproj : ∀ p ∈ tcs.foldl (groupStep testKey initValue incrSummary) [],
      summaryKey p.2 = p.1 :=
    keyProj_foldl_groupStep testKey initValue incrSummary summaryKey
      summaryKey_initValue summaryKey_incrSummary tcs [] (by simp)
  have hnodup :
      ((tcs.foldl (groupStep testKey initValue incrSummary) []).map
        Prod.fst).Nodup :=
    nodup_keys_foldl_groupStep testKey initValue incrSummary tcs [] (by simp)
  have hlook := alookup_foldl_groupStep_none testKey initValue incrSummary tcs
    [] k (by simp [alookup])
  unfold summarize_test_cases groupFold
  rw [filter_map_assoc Prod.snd summaryKey _ hproj k,
    filter_keys_of_nodup _ k hnodup]
  cases hflt : tcs.filter (fun tc => testKey tc = k) with
  | nil =>
      rw [hflt] at hlook
      rw [hlook]
      rfl
  | cons tc0 rest =>
      rw [hflt] at hlook
      rw [hlook]
      simp [specSummary_eq_foldl]

theorem length_four_filters (ms : List TestCase) :
    ms.length =
      (ms.filter (fun tc => tc.has_failure)).length +
      (ms.filter (fun tc => !tc.has_failure && tc.has_error)).length +
      (ms.filter
        (fun tc => !tc.has_failure && !tc.has_error && tc.has_skipped)).length +
      (ms.filter
        (fun tc => !tc.has_failure && !tc.has_error && !tc.has_skipped)).length := by
  induction ms with
  | nil => simp
  | cons tc ms ih =>
      by_cases h1 : tc.has_failure
      · simp [List.filter_cons, h1]; omega
      · by_cases h2 : tc.has_error
        · simp [List.filter_cons, h1, h2]; omega
        · by_cases h3 : tc.has_skipped
          · simp [List.filter_cons, h1, h2, h3]; omega
          · simp [List.filter_cons, h1, h2, h3]; omega


/-- C2 (amended): for every list of test-case records and every composite
key `(file, classname, job_id, workflow_id, workflow_run_attempt,
invoking_file)`, `summarize_test_cases` returns exactly one summary for the
key when some record carries it and none otherwise; that summary's `tests`
count is the number of records with the key, its `time` is the sum of their
`time` fields, and its `failures`/`errors`/`skipped`/`successes` counts
classify each record by the first matching marker in the priority order
failure, error, skipped, success (rather than by independent marker
containment, which the counterexample refutes). -/
theorem summarize_test_cases_grouping (tcs : List TestCase) (k : TKey) :
    (summarize_test_cases tcs).filter (fun s => summaryKey s = k) =
      match tcs.filter (fun tc => testKey tc = k) with
      | [] => []
      | tc0 :: rest => [specSummary tc0 (tc0 :: rest)] :=
  summarize_per_key tcs k

/-- C2 counterexample: a single record carrying both a failure and an error
marker. The claim as stated demands `errors = 1` for its summary (one record
with the key contains the `error` marker key), but the code counts the
record under `failures` only and leaves `errors = 0`. -/
theorem summarize_errors_count_cex :
    summarize_test_cases [tcFailErr] = [sFailErr] ∧
    ([tcFailErr].filter (fun tc => tc.has_error)).length = 1 ∧
    sFailErr.errors ≠ ([tcFailErr].filter (fun tc => tc.has_error)).length := by
  refine ⟨?_, by simp [tcFailErr], by simp [sFailErr, tcFailErr]⟩
  simp [summarize_test_cases, groupFold, groupStep, alookup, ainsert,
    incrSummary, initValue, testKey, tcFailErr, sFailErr, Summary.mk.injEq]

/-- C8: in every summary returned by `summarize_test_cases`, `tests` equals
`failures + errors + skipped + successes`, and the four counters classify
each record of the key by the first marker in the priority order failure,
error, skipped, success. -/
theorem summarize_outcome_partition (tcs : List TestCase) (s : Summary)
    (hs : s ∈ summarize_test_cases tcs) :
    s.tests = s.failures + s.errors + s.skipped + s.successes ∧
    s.failures =
      ((tcs.filter (fun tc => testKey tc = summaryKey s)).filter
        (fun tc => tc.has_failure)).length ∧
    s.errors =
      ((tcs.filter (fun tc => testKey tc = summaryKey s)).filter
        (fun tc => !tc.has_failure && tc.has_error)).length ∧
    s.skipped =
      ((tcs.filter (fun tc => testKey tc = summaryKey s)).filter
        (fun tc => !tc.has_failure && !tc.has_error && tc.has_skipped)).length ∧
    s.successes =
      ((tcs.filter (fun tc => testKey tc = summaryKey s)).filter
        (fun tc => !tc.has_failure && !tc.has_error && !tc.has_skipped)).length := by
  have hmem : s ∈ (summarize_test_cases tcs).filter
      (fun s2 => summaryKey s2 = summaryKey s) := by
    simp [List.mem_filter, hs]
  rw [summarize_per_key] at hmem
  cases hflt : tcs.filter (fun tc => testKey tc = summaryKey s) with
  | nil =>
      rw [hflt] at hmem
      simp at hmem
  | cons tc0 rest =>
      rw [hflt] at hmem
      simp only [List.mem_singleton] at hmem
      rw [hmem]
      refine ⟨?_, by simp [specSummary], by simp [specSummary],
        by simp [specSummary], by simp [specSummary]⟩
      simp only [specSummary]
      exact length_four_filters _

/-- Witness for C8 at a concrete one-record input. -/
theorem summarize_outcome_partition_witness :
    sOk.tests = sOk.failures + sOk.errors + sOk.skipped + sOk.successes ∧
    sOk.failures =
      (([tcOk].filter (fun tc => testKey tc = summaryKey sOk)).filter
        (fun tc => tc.has_failure)).length ∧
    sOk.errors =
      (([tcOk].filter (fun tc => testKey tc = summaryKey sOk)).filter
        (fun tc => !tc.has_failure && tc.has_error)).length ∧
    sOk.skipped =
      (([tcOk].filter (fun tc => testKey tc = summaryKey sOk)).filter
        (fun tc => !tc.has_failure && !tc.has_error && tc.has_skipped)).length ∧
    sOk.successes =
      (([tcOk].filter (fun tc => testKey tc = summaryKey sOk)).filter
        (fun tc => !tc.has_failure && !tc.has_error && !tc.has_skipped)).length :=
  summarize_outcome_partition [tcOk] sOk
    (by
      simp [summarize_test_cases, groupFold, groupStep, alookup, ainsert,
        incrSummary, initValue, testKey, tcOk, sOk, Summary.mk.injEq])


theorem ftKey_ftInit (s : Summary) : ftKey (ftInit s) = sKey s := rfl

theorem ftKey_ftIncr (v : FileTime) (s : Summary) : ftKey (ftIncr v s) = ftKey v := rfl

theorem foldl_ftIncr_eq (ms : List Summary) (v : FileTime) (q : Rat)
    (h : v.time = TimeVal.num q) :
    ms.foldl ftIncr v =
      { v with time := TimeVal.num (q + (ms.map Summary.time).sum) } := by
  induction ms generalizing v q with
  | nil =>
      cases v
      simp only [FileTime.mk.injEq] at h ⊢
      simp [h]
  | cons s ms ih =>
      rw [List.foldl_cons]
      have h1 : (ftIncr v s).time = TimeVal.num (q + s.time) := by
        simp [ftIncr, h]
      rw [ih _ _ h1]
      simp [ftIncr, add_assoc]

/-- C4: for every list of summaries and every pytest-parallel-times mapping,
`get_invoking_file_times` returns exactly one record per distinct
`(invoking_file, job_id)` pair occurring among the summaries; its `time` is
the sum of the `time` fields of the summaries with that pair, except that a
pair present in the pytest-parallel-times mapping gets the value recorded
there (the raw string taken from the testsuite element's `time`
attribute). -/
theorem get_invoking_file_times_per_key (summaries : List Summary)
    (ptimes : List ((String × Option Int) × String)) (k : String × Option Int) :
    (get_invoking_file_times summaries ptimes).filter (fun v => ftKey v = k) =
      match summaries.filter (fun s => sKey s = k) with
      | [] => []
      | s0 :: rest =>
          [{ job_id := s0.job_id, workflow_id := s0.workflow_id,
             workflow_run_attempt := s0.workflow_run_attempt,
             invoking_file := s0.invoking_file,
             time :=
               match alookup ptimes k with
               | some t => TimeVal.raw t
               | none =>
                   TimeVal.num (((s0 :: rest).map Summary.time).sum) }] := by
  have hproj : ∀ p ∈ summaries.foldl (groupStep sKey ftInit ftIncr) [],
      ftKey p.2 = p.1 :=
    keyProj_foldl_groupStep sKey ftInit ftIncr ftKey ftKey_ftInit ftKey_ftIncr
      summaries [] (by simp)
  have hnodup :
      ((summaries.foldl (groupStep sKey ftInit ftIncr) []).map Prod.fst).Nodup :=
    nodup_keys_foldl_groupStep sKey ftInit ftIncr summaries [] (by simp)
  have hlook := alookup_foldl_groupStep_none sKey ftInit ftIncr summaries []
    k (by simp [alookup])
  have hg : ∀ p ∈ summaries.foldl (groupStep sKey ftInit ftIncr) [],
      ftKey
        (match alookup ptimes p.1 with
         | some t => { p.2 with time := TimeVal.raw t }
         | none => p.2) = p.1 := by
    intro p hp
    cases alookup ptimes p.1 with
    | none => exact hproj p hp
    | some t => simpa [ftKey] using hproj p hp
  unfold get_invoking_file_times groupFold
  rw [filter_map_assoc _ ftKey _ hg k, filter_keys_of_nodup _ k hnodup]
  cases hflt : summaries.filter (fun s => sKey s = k) with
  | nil =>
      rw [hflt] at hlook
      rw [hlook]
      rfl
  | cons s0 rest =>
      rw [hflt] at hlook
      rw [hlook]
      have h2 : List.foldl ftIncr (ftIncr (ftInit s0) s0) rest =
          { job_id := s0.job_id, workflow_id := s0.workflow_id,
            workflow_run_attempt := s0.workflow_run_attempt,
            invoking_file := s0.invoking_file,
            time := TimeVal.num (s0.time + (rest.map Summary.time).sum) } := by
        rw [foldl_ftIncr_eq rest _ (0 + s0.time) (by simp [ftIncr, ftInit])]
        simp [ftIncr, ftInit]
      cases hpt : alookup ptimes k with
      | none => simp [h2, hpt]
      | some t => simp [h2, hpt]


theorem alookup_append {κ β : Type} [DecidableEq κ] (d1 d2 : List (κ × β))
    (k : κ) :
    alookup (d1 ++ d2) k =
      match alookup d1 k with
      | some v => some v
      | none => alookup d2 k := by
  induction d1 with
  | nil => simp [alookup]
  | cons p rest ih =>
      obtain ⟨k0, v0⟩ := p
      by_cases h0 : k0 = k
      · simp [alookup, h0]
      · simp [alookup, h0, ih]

theorem alookup_attribUpdate_ne (d : List (String × JVal))
    (attrib : List (String × String)) (k : String)
    (h : ∀ kv ∈ attrib, kv.1 ≠ k) :
    alookup (attribUpdate d attrib) k = alookup d k := by
  induction attrib generalizing d with
  | nil => rfl
  | cons kv rest ih =>
      have h1 : kv.1 ≠ k := h kv (List.mem_cons_self _ _)
      have h2 : ∀ kv2 ∈ rest, kv2.1 ≠ k := fun kv2 hm =>
        h kv2 (List.mem_cons_of_mem _ hm)
      show alookup (attribUpdate (ainsert d kv.1 (JVal.s kv.2)) rest) k = _
      rw [ih _ h2, alookup_ainsert_ne _ _ _ _ h1]

theorem attribUpdate_disjoint (attrib : List (String × String))
    (d : List (String × JVal)) (hd : ∀ kv ∈ attrib, alookup d kv.1 = none)
    (hn : (attrib.map Prod.fst).Nodup) :
    attribUpdate d attrib =
      d ++ attrib.map (fun kv => (kv.1, JVal.s kv.2)) := by
  induction attrib generalizing d with
  | nil => simp [attribUpdate]
  | cons kv rest ih =>
      obtain ⟨k0, v0⟩ := kv
      simp only [List.map_cons, List.nodup_cons] at hn
      have hd0 : alookup d k0 = none := hd (k0, v0) (List.mem_cons_self _ _)
      show attribUpdate (ainsert d k0 (JVal.s v0)) rest = _
      rw [ainsert_append_of_none _ _ _ hd0]
      rw [ih _ ?_ hn.2]
      · simp
      · intro kv2 hm
        rw [alookup_append]
        rw [hd kv2 (List.mem_cons_of_mem _ hm)]
        have hne : kv2.1 ≠ k0 := by
          intro hcon
          exact hn.1 (hcon ▸ (List.mem_map_of_mem Prod.fst hm))
        simp [alookup, Ne.symm hne]

theorem alookup_map_strings (attrib : List (String × String)) (k v : String)
    (hmem : (k, v) ∈ attrib) (hn : (attrib.map Prod.fst).Nodup) :
    alookup (attrib.map (fun kv => (kv.1, JVal.s kv.2))) k =
      some (JVal.s v) := by
  induction attrib with
  | nil => simp at hmem
  | cons kv rest ih =>
      obtain ⟨k0, v0⟩ := kv
      simp only [List.map_cons, List.nodup_cons] at hn
      rcases List.mem_cons.mp hmem with h1 | h1
      · have h1a : k = k0 := congrArg Prod.fst h1
        have h1b : v = v0 := congrArg Prod.snd h1
        subst h1a
        subst h1b
        simp [alookup]
      · have hne : k0 ≠ k := by
          intro hcon
          exact hn.1 (hcon ▸ (List.mem_map_of_mem Prod.fst h1))
        simp only [List.map_cons, alookup, hne, if_false]
        exact ih h1 hn.2

theorem alookup_coerceDict (d : List (String × JVal)) (k : String) :
    alookup (coerceDict d) k =
      (alookup d k).map (fun w =>
        match w with
        | JVal.s s0 => coerceValue s0
        | o => o) := by
  induction d with
  | nil => simp [coerceDict, alookup]
  | cons p rest ih =>
      obtain ⟨k0, v0⟩ := p
      by_cases h0 : k0 = k
      · cases v0 <;> simp [coerceDict, alookup, h0]
      · cases v0 <;> simpa [coerceDict, alookup, h0] using ih

theorem childStep_lookup_ne (d : List (String × JVal)) (t : String)
    (cd : List (String × JVal)) (k : String) (h : t ≠ k) :
    alookup (childStep d t cd) k = alookup d k := by
  unfold childStep
  cases alookup d t with
  | none => exact alookup_ainsert_ne _ _ _ _ h
  | some w =>
      cases w <;> exact alookup_ainsert_ne _ _ _ _ h

theorem elementList_ind (motive : ElementList → Prop)
    (hnil : motive ElementList.nil)
    (hcons : ∀ (c : Element) (cs : ElementList), motive cs →
      motive (ElementList.cons c cs)) (cs : ElementList) : motive cs :=
  @ElementList.rec (fun _ => True) motive (fun _ _ _ _ _ _ => trivial) hnil
    (fun c cs2 _ ih => hcons c cs2 ih) cs

theorem processChildren_lookup_ne (cs : ElementList) (d : List (String × JVal))
    (k : String) (h : ∀ c ∈ cs.toList, c.tag ≠ k) :
    alookup (processChildren cs d) k = alookup d k := by
  induction cs using elementList_ind generalizing d with
  | hnil => simp [processChildren]
  | hcons c cs ih =>
      have h1 : c.tag ≠ k := h c (by simp [ElementList.toList])
      have h2 : ∀ c2 ∈ cs.toList, c2.tag ≠ k := fun c2 hm =>
        h c2 (by simp [ElementList.toList, hm])
      show alookup (processChildren cs (childStep d c.tag (process_xml_element c))) k = _
      rw [ih _ h2, childStep_lookup_ne _ _ _ _ h1]

theorem childStep_lookup_self (d : List (String × JVal)) (t : String)
    (cd : List (String × JVal)) (ms : List (List (String × JVal)))
    (h : alookup d t = collapseChildren ms) :
    alookup (childStep d t cd) t = collapseChildren (ms ++ [cd]) := by
  unfold childStep
  rw [h]
  match ms with
  | [] => simp [collapseChildren, alookup_ainsert_self]
  | [a] => simp [collapseChildren, alookup_ainsert_self]
  | a :: b :: r => simp [collapseChildren, alookup_ainsert_self]

theorem processChildren_collapse (cs : ElementList)
    (d : List (String × JVal)) (t : String)
    (ms : List (List (String × JVal)))
    (h : alookup d t = collapseChildren ms) :
    alookup (processChildren cs d) t =
      collapseChildren
        (ms ++ (cs.toList.filter (fun c => c.tag = t)).map
          process_xml_element) := by
  induction cs using elementList_ind generalizing d ms with
  | hnil => simpa [processChildren, ElementList.toList] using h
  | hcons c cs ih =>
      show alookup
          (processChildren cs (childStep d c.tag (process_xml_element c))) t = _
      by_cases hc : c.tag = t
      · rw [hc]
        rw [ih (childStep d t (process_xml_element c))
          (ms ++ [process_xml_element c])
          (childStep_lookup_self d t _ ms h)]
        simp [ElementList.toList, List.filter_cons, hc, List.append_assoc]
      · have h2 : alookup (childStep d c.tag (process_xml_element c)) t =
            collapseChildren ms := by
          rw [childStep_lookup_ne _ _ _ _ hc, h]
        rw [ih _ _ h2]
        simp [ElementList.toList, List.filter_cons, hc]


theorem alookup_textStep_ne (d : List (String × JVal)) (key : String)
    (o : Option String) (k : String) (h : textTruthy o = true → key ≠ k) :
    alookup (textStep d key o) k = alookup d k := by
  cases o with
  | none => rfl
  | some t =>
      by_cases hc : (!t.data.isEmpty && !(pyStrip t.data).isEmpty) = true
      · have hne : key ≠ k := h (by simpa [textTruthy] using hc)
        simp only [textStep, hc, if_true]
        exact alookup_ainsert_ne _ _ _ _ hne
      · simp [textStep, hc]

/-- C1 (amended): for every XML element and every attribute `(k, v)` of it
such that no child of the element carries the tag `k` and `k` is not
overwritten by the `text`/`tail` entries, the returned mapping holds `k`
with the coerced value of `v`: the original string when `v` parses neither
as an int nor as a float, and a numeric value (int or float) when it does. -/
theorem process_xml_element_attr_coercion (e : Element) (k v : String)
    (hmem : (k, v) ∈ e.attrib)
    (hnodup : (e.attrib.map Prod.fst).Nodup)
    (hchild : ∀ c ∈ e.children.toList, c.tag ≠ k)
    (htext : textTruthy e.text = true → k ≠ "text")
    (htail : textTruthy e.tail = true → k ≠ "tail") :
    alookup (process_xml_element e) k = some (coerceValue v) ∧
    (tryParseInt v = none ∧ tryParseFloat v = none → coerceValue v = JVal.s v) ∧
    ((tryParseInt v).isSome ∨ (tryParseFloat v).isSome →
      (∃ n, coerceValue v = JVal.i n) ∨ (∃ q, coerceValue v = JVal.f q)) := by
  obtain ⟨tag, attrib, text, tail, children⟩ := e
  simp only [Element.attrib] at hmem hnodup
  simp only [Element.children] at hchild
  simp only [Element.text] at htext
  simp only [Element.tail] at htail
  refine ⟨?_, ?_, ?_⟩
  · show alookup
        (processChildren children
          (textStep (textStep (coerceDict (attribUpdate [] attrib)) "text" text)
            "tail" tail)) k = _
    rw [processChildren_lookup_ne children _ k hchild,
      alookup_textStep_ne _ _ _ _ (fun h2 => (htail h2).symm),
      alookup_textStep_ne _ _ _ _ (fun h2 => (htext h2).symm),
      alookup_coerceDict,
      attribUpdate_disjoint attrib [] (fun kv _ => rfl) hnodup]
    rw [List.nil_append, alookup_map_strings attrib k v hmem hnodup]
    rfl
  · intro hp
    simp [coerceValue, hp.1, hp.2]
  · intro hp
    cases hf : tryParseFloat v with
    | some q => exact Or.inr ⟨q, by simp [coerceValue, hf]⟩
    | none =>
        cases hi : tryParseInt v with
        | some n => exact Or.inl ⟨n, by simp [coerceValue, hf, hi]⟩
        | none =>
            exfalso
            rcases hp with hp | hp
            · rw [hi] at hp; simp at hp
            · rw [hf] at hp; simp at hp

/-- Witness for C1 at `<testcase name="t1" time="0.5"/>` and the attribute
`name="t1"`, whose value stays the original string. -/
theorem process_xml_element_attr_coercion_witness :
    alookup (process_xml_element wElemC1) "name" = some (coerceValue "t1") ∧
    (tryParseInt "t1" = none ∧ tryParseFloat "t1" = none →
      coerceValue "t1" = JVal.s "t1") ∧
    ((tryParseInt "t1").isSome ∨ (tryParseFloat "t1").isSome →
      (∃ n, coerceValue "t1" = JVal.i n) ∨
      (∃ q, coerceValue "t1" = JVal.f q)) :=
  process_xml_element_attr_coercion wElemC1 "name" "t1"
    (by simp [wElemC1, Element.attrib])
    (by simp [wElemC1, Element.attrib])
    (by simp [wElemC1, Element.children, ElementList.toList])
    (by simp [wElemC1, Element.text, textTruthy])
    (by simp [wElemC1, Element.tail, textTruthy])

/-- C1 counterexample: in `<testcase foo="1"><foo/></testcase>` the child
tag `foo` collides with the attribute `foo="1"`; the claim as stated demands
the mapping to hold the numeric coercion of `"1"` under `foo`, but the code
stores a list holding the coerced attribute and the converted child. -/
theorem process_xml_element_attr_shadowed_cex :
    alookup (process_xml_element cexElemC1) "foo" =
      some (JVal.arr [coerceValue "1", JVal.obj []]) ∧
    alookup (process_xml_element cexElemC1) "foo" ≠
      some (coerceValue "1") := by
  have h1 : alookup (process_xml_element cexElemC1) "foo" =
      some (JVal.arr [coerceValue "1", JVal.obj []]) := by
    simp [cexElemC1, process_xml_element, processChildren, childStep,
      attribUpdate, coerceDict, textStep, ainsert, alookup, Element.tag,
      coerceValue, tryParseInt, tryParseFloat, pyStrip, floatBody]
  refine ⟨h1, ?_⟩
  rw [h1]
  intro hcon
  injection hcon with hcon2
  cases hcon2

/-- C3 (amended): for every XML element and tag `t` that collides with no
attribute name and is not the `text`/`tail` key when those entries are
written, the value stored under `t` is the collapse of the converted
children with tag `t` in document order: absent for no child, the single
converted dict for one child, and the list of converted dicts, one entry per
child in document order, for two or more. -/
theorem process_xml_element_child_grouping (e : Element) (t : String)
    (hattr : ∀ kv ∈ e.attrib, kv.1 ≠ t)
    (htext : textTruthy e.text = true → t ≠ "text")
    (htail : textTruthy e.tail = true → t ≠ "tail") :
    alookup (process_xml_element e) t =
      collapseChildren
        ((e.children.toList.filter (fun c => c.tag = t)).map
          process_xml_element) := by
  obtain ⟨tag, attrib, text, tail, children⟩ := e
  simp only [Element.attrib] at hattr
  simp only [Element.children]
  simp only [Element.text] at htext
  simp only [Element.tail] at htail
  show alookup
      (processChildren children
        (textStep (textStep (coerceDict (attribUpdate [] attrib)) "text" text)
          "tail" tail)) t = _
  have hbase : alookup
      (textStep (textStep (coerceDict (attribUpdate [] attrib)) "text" text)
        "tail" tail) t = none := by
    rw [alookup_textStep_ne _ _ _ _ (fun h2 => (htail h2).symm),
      alookup_textStep_ne _ _ _ _ (fun h2 => (htext h2).symm),
      alookup_coerceDict, alookup_attribUpdate_ne [] attrib t hattr]
    rfl
  have h2 := processChildren_collapse children _ t [] (by rw [hbase]; rfl)
  simpa using h2

/-- Witness for C3 at `<testsuite><tc/><tc/></testsuite>`: two children with
the same tag produce a two-entry list in document order. -/
theorem process_xml_element_child_grouping_witness :
    alookup (process_xml_element wElemC3) "tc" =
      collapseChildren
        ((wElemC3.children.toList.filter (fun c => c.tag = "tc")).map
          process_xml_element) :=
  process_xml_element_child_grouping wElemC3 "tc"
    (by simp [wElemC3, Element.attrib])
    (by simp [wElemC3, Element.text, textTruthy])
    (by simp [wElemC3, Element.tail, textTruthy])

/-- C3 counterexample: in `<testcase foo="x"><foo/></testcase>` exactly one
child carries the tag `foo`, yet the stored value is not the single
converted child mapping: the attribute of the same name was already there,
so the code wraps it and appends, storing a two-entry list. -/
theorem process_xml_element_single_child_cex :
    alookup (process_xml_element cexElemC3) "foo" =
      some (JVal.arr [JVal.s "x", JVal.obj []]) ∧
    alookup (process_xml_element cexElemC3) "foo" ≠
      some (JVal.obj
        (process_xml_element (Element.mk "foo" [] none none
          ElementList.nil))) := by
  have h1 : alookup (process_xml_element cexElemC3) "foo" =
      some (JVal.arr [JVal.s "x", JVal.obj []]) := by
    simp [cexElemC3, process_xml_element, processChildren, childStep,
      attribUpdate, coerceDict, textStep, ainsert, alookup, Element.tag,
      coerceValue, tryParseInt, tryParseFloat, pyStrip, floatBody]
  have h2 : process_xml_element
      (Element.mk "foo" [] none none ElementList.nil) = [] := by
    simp [process_xml_element, processChildren, attribUpdate, coerceDict,
      textStep]
  refine ⟨h1, ?_⟩
  rw [h1, h2]
  intro hcon
  injection hcon with hcon2
  cases hcon2


theorem takeWhile_append_of_all {α : Type} (p : α → Bool) (l : List α) (c : α)
    (r : List α) (hl : ∀ a ∈ l, p a = true) (hc : p c = false) :
    (l ++ c :: r).takeWhile p = l := by
  induction l with
  | nil => simp [List.takeWhile_cons, hc]
  | cons a rest ih =>
      have ha : p a = true := hl a (List.mem_cons_self _ _)
      have hrest : ∀ a2 ∈ rest, p a2 = true := fun a2 hm =>
        hl a2 (List.mem_cons_of_mem _ hm)
      simp [List.takeWhile_cons, ha, ih hrest]

theorem afterLast_append (pre ds : List Char) (c : Char) (h : c ∉ ds) :
    afterLast (pre ++ c :: ds) c = ds := by
  unfold afterLast
  have h1 : (pre ++ c :: ds).reverse = ds.reverse ++ c :: pre.reverse := by
    simp
  rw [h1]
  rw [takeWhile_append_of_all _ ds.reverse c pre.reverse ?hl ?hc]
  · simp
  case hl =>
    intro a ha
    have : a ∈ ds := List.mem_reverse.mp ha
    simp only [decide_eq_true_eq]
    intro hcon
    exact h (hcon ▸ this)
  case hc => simp

theorem isDigit_not_whitespace (c : Char) (h : c.isDigit = true) :
    c.isWhitespace = false := by
  have h1 : c ≠ ' ' := by rintro rfl; exact absurd h (by decide)
  have h2 : c ≠ '\t' := by rintro rfl; exact absurd h (by decide)
  have h3 : c ≠ '\r' := by rintro rfl; exact absurd h (by decide)
  have h4 : c ≠ '\n' := by rintro rfl; exact absurd h (by decide)
  simp [Char.isWhitespace, h1, h2, h3, h4]

theorem dropWhile_eq_self_of_all {α : Type} (p : α → Bool) (l : List α)
    (h : ∀ a ∈ l, p a = false) : l.dropWhile p = l := by
  cases l with
  | nil => rfl
  | cons a rest => simp [List.dropWhile_cons, h a (List.mem_cons_self _ _)]

theorem pyStrip_all_digits (l : List Char) (h : ∀ a ∈ l, a.isDigit = true) :
    pyStrip l = l := by
  unfold pyStrip
  rw [dropWhile_eq_self_of_all _ _
    (fun a ha => isDigit_not_whitespace a (h a ha))]
  rw [dropWhile_eq_self_of_all _ _
    (fun a ha => isDigit_not_whitespace a (h a (List.mem_reverse.mp ha)))]
  simp

theorem tryParseInt_digits (ds : List Char) (h0 : ds ≠ [])
    (h : ∀ a ∈ ds, a.isDigit = true) :
    tryParseInt (String.mk ds) = some ((digitsToNat ds : Int)) := by
  unfold tryParseInt
  have hs : (String.mk ds).data = ds := rfl
  rw [hs, pyStrip_all_digits ds h]
  cases ds with
  | nil => exact absurd rfl h0
  | cons d rest =>
      have hd : d.isDigit = true := h d (List.mem_cons_self _ _)
      have hdm : d ≠ '-' := by rintro rfl; exact absurd hd (by decide)
      have hdp : d ≠ '+' := by rintro rfl; exact absurd hd (by decide)
      split
      · rename_i r2 heq
        injection heq with e1 e2
        exact absurd e1 hdm
      · rename_i r2 heq
        injection heq with e1 e2
        exact absurd e1 hdp
      · rw [if_pos ⟨List.cons_ne_nil _ _, by simpa [List.all_eq_true] using h⟩]

theorem get_job_id_suffix (pre ds : String) (rest : List String)
    (h0 : ds ≠ "") (hd : ∀ a ∈ ds.data, a.isDigit = true) :
    get_job_id ((pre ++ "_" ++ ds) :: rest) =
      some ((digitsToNat ds.data : Int)) := by
  unfold get_job_id
  have h1 : (pre ++ "_" ++ ds).data = pre.data ++ '_' :: ds.data := by
    rw [String.data_append, String.data_append, List.append_assoc]
    rfl
  show tryParseInt (String.mk (afterLast (pre ++ "_" ++ ds).data '_')) =
    some ((digitsToNat ds.data : Int))
  rw [h1, afterLast_append pre.data ds.data '_'
    (fun hcon => absurd (hd '_' hcon) (by decide))]
  exact tryParseInt_digits ds.data
    (fun hcon => h0 (String.ext (by rw [hcon]))) hd


theorem alookup_addCaseFields_job_id (case2 : List (String × JVal))
    (wid wra : Int) (j : Option Int) (inv : String) :
    alookup (addCaseFields case2 wid wra j inv) "job_id" =
      some
        (match j with
         | some x => JVal.i x
         | none => JVal.null) := by
  unfold addCaseFields
  rw [alookup_ainsert_ne _ _ _ _ (by decide), alookup_ainsert_self]

/-- C5: extraction failure of the job id does not make `parse_xml_report`
fail: the exception is caught and every returned test case records `job_id`
as the missing value `None`; and when the first path component ends in an
underscore followed by a decimal integer, the extracted job id is that
integer. -/
theorem parse_xml_report_job_id (tag : String) (reportParts : List String)
    (parentName : String) (wid wra : Int) (root : Element) (rerun : Bool)
    (pre ds : String) :
    (get_job_id reportParts = none →
      ∀ case2 ∈ parse_xml_report tag reportParts parentName wid wra root rerun,
        alookup case2 "job_id" = some JVal.null) ∧
    (reportParts.head? = some (pre ++ "_" ++ ds) → ds ≠ "" →
      (∀ a ∈ ds.data, a.isDigit = true) →
      get_job_id reportParts = some ((digitsToNat ds.data : Int))) := by
  constructor
  · intro hnone case2 hmem
    unfold parse_xml_report at hmem
    cases rerun with
    | true => simp at hmem
    | false =>
        simp only [if_false, Bool.false_eq_true, List.mem_map] at hmem
        obtain ⟨tc, _, rfl⟩ := hmem
        rw [alookup_addCaseFields_job_id, hnone]
  · intro hhead h0 hd
    cases reportParts with
    | nil => simp at hhead
    | cons p rest =>
        simp only [List.head?_cons, Option.some.injEq] at hhead
        subst hhead
        exact get_job_id_suffix pre ds rest h0 hd

/-- Witness for C5: `report.xml` has no job id, so the single parsed test
case records `None`; `pre_123` yields `123`. -/
theorem parse_xml_report_job_id_witness :
    alookup
      (addCaseFields (process_xml_element wRootC5) 5 1
        (get_job_id ["report.xml"]) "folder") "job_id" = some JVal.null ∧
    get_job_id ["pre_123"] = some ((digitsToNat "123".data : Int)) := by
  constructor
  · exact
      (parse_xml_report_job_id "testcase" ["report.xml"] "folder" 5 1 wRootC5
        false "" "").1 (by decide)
        (addCaseFields (process_xml_element wRootC5) 5 1
          (get_job_id ["report.xml"]) "folder")
        (by
          simp [parse_xml_report, Element.iter, ElementList.iterAll, wRootC5])
  · exact
      (parse_xml_report_job_id "testcase" ["pre_123"] "folder" 5 1 wRootC5
        false "pre" "123").2 (by decide) (by decide) (by decide)

end UploadTestStats

namespace CudaRandom

theorem seedAllGo_seeded (e : Int) (gs : List GenState) (rs : Int) :
    seedAllGo e gs true rs = gs.map (fun g => g.manualSeedOp rs) := by
  induction gs with
  | nil => rfl
  | cons g gs ih => simp [seedAllGo, ih]

theorem map_const_replicate {α β : Type} (l : List α) (b : β) :
    l.map (fun _ => b) = List.replicate l.length b := by
  induction l with
  | nil => rfl
  | cons a l ih => simp [ih, List.replicate]

/-- C10: when the callback queued by `seed_all` runs over `n ≥ 1` device
generators, the first generator is seeded from the fresh entropy value, every
later generator is manually seeded to the `initial_seed` the first one then
reports, and afterwards all `n` generators hold that same seed. -/
theorem seed_all_callback_uniform (st : CudaState) (h2 : Heap) (e : Int)
    (g0 : GenState) (gs : List GenState) (hgen : st.generators = g0 :: gs) :
    (applyCmd e h2 st RngCmd.seedAll).generators =
      GenState.seedOp g0 e ::
        gs.map (fun g =>
          g.manualSeedOp (GenState.initialSeedOp (GenState.seedOp g0 e))) ∧
    (applyCmd e h2 st RngCmd.seedAll).generators.map GenState.initialSeedVal =
      List.replicate st.generators.length e := by
  have h1 : (applyCmd e h2 st RngCmd.seedAll).generators =
      GenState.seedOp g0 e ::
        gs.map (fun g =>
          g.manualSeedOp (GenState.initialSeedOp (GenState.seedOp g0 e))) := by
    simp [applyCmd, hgen, seedAllApply, seedAllGo, seedAllGo_seeded]
  refine ⟨h1, ?_⟩
  rw [h1, hgen]
  simp only [List.map_cons, List.map_map, List.length_cons]
  rw [List.replicate_succ]
  congr 1
  have hfun : (GenState.initialSeedVal ∘ fun (g : GenState) =>
      g.manualSeedOp (GenState.initialSeedOp (GenState.seedOp g0 e))) =
      fun (_ : GenState) => e := by
    funext g
    rfl
  rw [hfun, map_const_replicate]

/-- Witness for C10: both generators end up with the fresh seed `9`. -/
theorem seed_all_callback_uniform_witness :
    (applyCmd 9 hEmpty wSt RngCmd.seedAll).generators =
      GenState.seedOp gA 9 ::
        [gB].map (fun g =>
          g.manualSeedOp (GenState.initialSeedOp (GenState.seedOp gA 9))) ∧
    (applyCmd 9 hEmpty wSt RngCmd.seedAll).generators.map
        GenState.initialSeedVal =
      List.replicate wSt.generators.length 9 :=
  seed_all_callback_uniform wSt hEmpty 9 gA [gB] rfl

/-- C6: with no CUDA device present the lazy-initialization gate has never
passed, so each seed setter only queues its callback: the generator state is
unchanged after one call and still unchanged after a repeated call, and no
setter fails (every setter of the model is a total function). -/
theorem seed_setters_noop_no_device (st : CudaState) (h : Heap) (s : Int)
    (e e2 : Int) (hwf : WF st) (h0 : st.deviceCount = 0) :
    (manual_seed s st h e).generators = st.generators ∧
    (manual_seed_all s st h e).generators = st.generators ∧
    (seed st h e).generators = st.generators ∧
    (seed_all st h e).generators = st.generators ∧
    (manual_seed s (manual_seed s st h e) h e2).generators = st.generators ∧
    (manual_seed_all s (manual_seed_all s st h e) h e2).generators =
      st.generators ∧
    (seed (seed st h e) h e2).generators = st.generators ∧
    (seed_all (seed_all st h e) h e2).generators = st.generators := by
  have hni : st.inited = false := by
    cases hic : st.inited with
    | false => rfl
    | true => exact absurd (h0 ▸ hwf.1 hic) (lt_irrefl 0)
  simp [manual_seed, manual_seed_all, seed, seed_all, lazyCall, hni]

/-- Witness for C6 at a concrete zero-device state. -/
theorem seed_setters_noop_no_device_witness :
    (manual_seed 3 wSt0 hEmpty 7).generators = wSt0.generators ∧
    (manual_seed_all 3 wSt0 hEmpty 7).generators = wSt0.generators ∧
    (seed wSt0 hEmpty 7).generators = wSt0.generators ∧
    (seed_all wSt0 hEmpty 7).generators = wSt0.generators ∧
    (manual_seed 3 (manual_seed 3 wSt0 hEmpty 7) hEmpty 8).generators =
      wSt0.generators ∧
    (manual_seed_all 3 (manual_seed_all 3 wSt0 hEmpty 7) hEmpty 8).generators =
      wSt0.generators ∧
    (seed (seed wSt0 hEmpty 7) hEmpty 8).generators = wSt0.generators ∧
    (seed_all (seed_all wSt0 hEmpty 7) hEmpty 8).generators =
      wSt0.generators :=
  seed_setters_noop_no_device wSt0 hEmpty 3 7 8
    ⟨fun hcon => by simp [wSt0] at hcon, rfl⟩ rfl

theorem updateAt_getElem {α : Type} (l : List α) (i : Nat) (f : α → α) :
    (updateAt l i f)[i]? = (l[i]?).map f := by
  induction l generalizing i with
  | nil => simp [updateAt]
  | cons a rest ih =>
      cases i with
      | zero => simp [updateAt]
      | succ j => simpa [updateAt] using ih j

/-- C9: `set_rng_state` clones the tensor before queuing the callback, so
the callback holds a fresh tensor id the caller cannot reach; for every heap
`h2` in which the callback later runs - it may differ from the post-call
heap on every caller-visible tensor (every id allocated before the call,
including the passed tensor) - the generator state eventually installed is
the contents the passed tensor had at call time. -/
theorem set_rng_state_copies (st : CudaState) (h : Heap) (t : Nat)
    (dev : Option Nat) (e e2 : Int) (h2 : Heap)
    (hinit : st.inited = false) (hq : st.queued = [])
    (hmut : ∀ i, h.next ≤ i → h2.mem i = (set_rng_state st h t dev e).2.mem i)
    (hidx : dev.getD st.currentDevice < st.generators.length) :
    ((lazyInit (set_rng_state st h t dev e).1 h2
        e2).generators[dev.getD st.currentDevice]?).map GenState.stateBlob =
      some (h.mem t) := by
  have hmem0 : h2.mem h.next = h.mem t := by
    rw [hmut h.next (le_refl _)]
    simp [set_rng_state, Heap.clone]
  have hcmd : (set_rng_state st h t dev e).1 =
      { st with queued := [RngCmd.setState dev h.next] } := by
    simp [set_rng_state, Heap.clone, lazyCall, hinit, hq]
  rw [hcmd]
  rw [lazyInit]
  rw [if_neg (by simp [hinit])]
  simp only [List.foldl_cons, List.foldl_nil, applyCmd]
  rw [updateAt_getElem]
  have hsome : st.generators[dev.getD st.currentDevice]? =
      some (st.generators.get ⟨dev.getD st.currentDevice, hidx⟩) := by
    simp [List.getElem?_eq_getElem hidx]
  rw [hsome]
  simp [GenState.setStateOp, hmem0]

/-- Witness for C9: the installed blob is the pre-mutation contents `[5]` of
tensor 0, although the heap at callback time holds `[6]` there. -/
theorem set_rng_state_copies_witness :
    ((lazyInit (set_rng_state wSt hConst5 0 (some 1) 7).1 hMut
        7).generators[(some 1).getD wSt.currentDevice]?).map
      GenState.stateBlob = some (hConst5.mem 0) :=
  set_rng_state_copies wSt hConst5 0 (some 1) 7 7 hMut rfl rfl
    (by
      intro i hi
      have h3 : ¬i = 0 := by
        simp [hConst5] at hi
        omega
      simp [set_rng_state, Heap.clone, hMut, hConst5, h3])
    (by simp [wSt])

end CudaRandom
